import Mathlib

/-!
Verification development for the compatibility-group store of the
Spare-Parts repository (`src/database.py`).

The MongoDB collections are embedded as association lists:

* `phones_collection` becomes `DB.phones : List (String × PhoneRec)`,
  keyed by the document's `search_key` (the lowercase-folded model name;
  the source creates a unique index on `search_key`, line 15).
* `compatibility_groups` becomes `DB.groups : List (Nat × GroupRec)`,
  keyed by the document's `_id`.

Mongo `ObjectId` values are embedded as natural numbers allocated from the
counter `DB.nextGid`.  This is faithful to the source's primary-group
selection `ObjectId(sorted([str(id) for id in existing_group_ids])[0])`
(database.py line 96): an `ObjectId`'s string form is a fixed-width
24-character lowercase-hex rendering of its 96-bit value, so lexicographic
order on those strings coincides with numeric order on the values, and the
values of freshly allocated ids increase over time.  Under the embedding
the selected primary id is therefore the numeric minimum.

Python's `str.lower` is embedded as `foldName` (per-character lowering);
Python's `sorted` on strings is embedded as `sortPlain` (lexicographic by
code point), and `sorted(..., key=str.casefold)` as `sortCasefold` (stable
insertion sort on the lowered key; `casefold` and `lower` agree on the
ASCII model names that occur here).  Python `set` values are embedded as
deduplicated lists; every use in the source (membership, union, minimum,
set difference) is insensitive to element order.
-/

/-! ## String utilities -/

/-- Lowercase a single character (ASCII, as Python `str.lower` does on the
model names used by this repository). -/
def foldChar (c : Char) : Char := c.toLower

/-- Embedding of Python `str.lower()`: the case-folded search key. -/
def foldName (s : String) : String := String.mk (s.data.map foldChar)

/-- Lexicographic comparison of character lists by code point, the order
Python uses to compare strings. -/
def charListLE : List Char → List Char → Bool
  | [], _ => true
  | _ :: _, [] => false
  | a :: as, b :: bs =>
    if a.toNat < b.toNat then true
    else if b.toNat < a.toNat then false
    else charListLE as bs

/-- Embedding of Python string comparison `a <= b` (code-point order). -/
def strLE (a b : String) : Bool := charListLE a.data b.data

/-- Comparison on the case-folded key, as in `sorted(..., key=str.casefold)`. -/
def cfLE (a b : String) : Bool := strLE (foldName a) (foldName b)

/-- Insert a string into a list, in front of the first element it compares
less-or-equal to. -/
def insSorted (le : String → String → Bool) (a : String) : List String → List String
  | [] => [a]
  | b :: bs => if le a b then a :: b :: bs else b :: insSorted le a bs

/-- Stable insertion sort, the embedding of Python `sorted`. -/
def sortBy (le : String → String → Bool) : List String → List String
  | [] => []
  | a :: as => insSorted le a (sortBy le as)

/-- Embedding of plain `sorted(...)` on strings: case-sensitive code-point order. -/
def sortPlain (l : List String) : List String := sortBy strLE l

/-- Embedding of `sorted(..., key=str.casefold)`: case-insensitive order. -/
def sortCasefold (l : List String) : List String := sortBy cfLE l

/-! ## Association-list primitives (the document stores) -/

/-- Look up the first entry with the given key (`find_one`). -/
def lookupKey {κ ν : Type} [DecidableEq κ] : List (κ × ν) → κ → Option ν
  | [], _ => none
  | (k, v) :: rest, key => if k = key then some v else lookupKey rest key

/-- Replace the value of the first entry with the given key; no entry, no
change (`update_one` with no upsert). -/
def setKey {κ ν : Type} [DecidableEq κ] : List (κ × ν) → κ → ν → List (κ × ν)
  | [], _, _ => []
  | (k, v) :: rest, key, newV =>
    if k = key then (k, newV) :: rest else (k, v) :: setKey rest key newV

/-- Remove the first entry with the given key (`delete_one`). -/
def eraseKey {κ ν : Type} [DecidableEq κ] : List (κ × ν) → κ → List (κ × ν)
  | [], _ => []
  | (k, v) :: rest, key => if k = key then rest else (k, v) :: eraseKey rest key

/-- Remove every entry whose key is listed (`delete_many` with `$in`). -/
def removeKeys {κ ν : Type} [DecidableEq κ] (l : List (κ × ν)) (ks : List κ) :
    List (κ × ν) :=
  l.filter (fun kv => kv.1 ∉ ks)

/-! ## Data model -/

/-- The two part categories handled by the bot (`display_group_id` /
`glass_group_id` fields of a phone document). -/
inductive PartType
  | display
  | glass
deriving DecidableEq

/-- A document of `phones_collection`: `_id` is the display-case model
name, and the two optional fields reference compatibility groups.  The
`search_key` field is the association-list key and is not repeated here. -/
structure PhoneRec where
  modelId : String
  displayGroupId : Option Nat := none
  glassGroupId : Option Nat := none
deriving DecidableEq

/-- Read the group reference for a part category, `phone_doc.get(f"{part_type}_group_id")`. -/
def PhoneRec.groupRef (r : PhoneRec) : PartType → Option Nat
  | .display => r.displayGroupId
  | .glass => r.glassGroupId

/-- Set the group reference for a part category, `$set {group_id_key: gid}`. -/
def PhoneRec.setGroupRef (r : PhoneRec) : PartType → Nat → PhoneRec
  | .display, gid => { r with displayGroupId := some gid }
  | .glass, gid => { r with glassGroupId := some gid }

/-- A document of `compatibility_groups`: its part type and member list. -/
structure GroupRec where
  gtype : PartType
  models : List String
deriving DecidableEq

/-- The whole store: both collections plus the allocation counter for
fresh group ids (see the header comment on `ObjectId`). -/
structure DB where
  phones : List (String × PhoneRec)
  groups : List (Nat × GroupRec)
  nextGid : Nat
deriving DecidableEq

/-- The empty store. -/
def emptyDB : DB := ⟨[], [], 0⟩

/-- Store well-formedness, guaranteed by MongoDB itself: the unique index
on `search_key` (database.py line 15), uniqueness of `_id` values, and
freshness of newly generated `ObjectId` values. -/
def DB.WF (db : DB) : Prop :=
  (db.phones.map Prod.fst).Nodup ∧ (db.groups.map Prod.fst).Nodup ∧
    ∀ g ∈ db.groups.map Prod.fst, g < db.nextGid

instance (db : DB) : Decidable db.WF := by
  unfold DB.WF; infer_instance

/-! ## Operations of `src/database.py` -/

/-- Embedding of `find_phone` (database.py lines 21-24): case-insensitive
lookup through the folded search key.  A pure read. -/
def find_phone (db : DB) (model_name : String) : Option PhoneRec :=
  lookupKey db.phones (foldName model_name)

/-- Embedding of `get_all_phones` (lines 26-29): all `_id` values, sorted
case-sensitively. -/
def get_all_phones (db : DB) : List String :=
  sortPlain (db.phones.map (fun kv => kv.2.modelId))

/-- Embedding of the `$pull` update in `delete_phone` (lines 40-49): drop
every occurrence of the given raw string from one group's member list. -/
def pullModel (groups : List (Nat × GroupRec)) (gid : Nat) (name : String) :
    List (Nat × GroupRec) :=
  match lookupKey groups gid with
  | none => groups
  | some g => setKey groups gid { g with models := g.models.filter (fun m => m ≠ name) }

/-- Embedding of `delete_phone` (lines 31-52).  Note that the `$pull`
updates remove the input string `model_name` as typed, not the stored
`_id`, while the lookup and the final `delete_one` go through the folded
search key. -/
def delete_phone (db : DB) (model_name : String) : Bool × DB :=
  match find_phone db model_name with
  | none => (false, db)
  | some phone_doc =>
    let gs1 := match phone_doc.displayGroupId with
      | some gid => pullModel db.groups gid model_name
      | none => db.groups
    let gs2 := match phone_doc.glassGroupId with
      | some gid => pullModel gs1 gid model_name
      | none => gs1
    (true, { db with groups := gs2, phones := eraseKey db.phones (foldName model_name) })

/-- Embedding of `get_compatible_models` (lines 54-71). -/
def get_compatible_models (db : DB) (model_name : String) (part_type : PartType) :
    List String :=
  match find_phone db model_name with
  | none => []
  | some phone_doc =>
    match phone_doc.groupRef part_type with
    | none => [model_name]
    | some group_id =>
      match lookupKey db.groups group_id with
      | some group_doc =>
          sortPlain ((group_doc.models).filter
            (fun m => foldName m ≠ foldName model_name))
      | none => []

/-- Embedding of `existing_group_ids` (lines 80-84): the distinct group
references for the part type held by phones whose search key matches an
input name. -/
def existingGroupIds (db : DB) (model_names : List String) (pt : PartType) :
    List Nat :=
  (((db.phones.filter (fun kv => kv.1 ∈ model_names.map foldName)).map
    Prod.snd).filterMap (fun p => p.groupRef pt)).dedup

/-- Embedding of `final_model_list` (lines 86-93): the input names unioned
with the members of every referenced group, sorted on the casefolded key. -/
def finalModels (db : DB) (model_names : List String) (pt : PartType) :
    List String :=
  sortCasefold ((model_names ++
    (((db.groups.filter (fun kv => kv.1 ∈ existingGroupIds db model_names pt)).map
      Prod.snd).map GroupRec.models).flatten).dedup)

/-- Embedding of one `UpdateOne(..., upsert=True)` of the bulk write
(lines 110-119): keyed by the folded name, sets the group reference, and
on insert also fixes `_id` to the raw name. -/
def upsertPhone (phones : List (String × PhoneRec)) (rawName : String)
    (pt : PartType) (gid : Nat) : List (String × PhoneRec) :=
  match lookupKey phones (foldName rawName) with
  | some p => setKey phones (foldName rawName) (p.setGroupRef pt gid)
  | none =>
      phones ++ [(foldName rawName, (PhoneRec.mk rawName none none).setGroupRef pt gid)]

/-- Embedding of the ordered bulk write (line 122): the upserts applied in
member-list order. -/
def upsertAll (phones : List (String × PhoneRec)) (names : List String)
    (pt : PartType) (gid : Nat) : List (String × PhoneRec) :=
  names.foldl (fun ps m => upsertPhone ps m pt gid) phones

/-- The primary group id chosen by `link_parts` (lines 95-101): the
minimum of the existing ids, or the freshly allocated id. -/
def primaryOf (db : DB) (model_names : List String) (pt : PartType) : Nat :=
  match existingGroupIds db model_names pt with
  | [] => db.nextGid
  | e :: es => es.foldl Nat.min e

/-- Embedding of `link_parts` (lines 73-125), step for step: collect the
existing group ids, compute the unioned sorted member list, pick the
primary group (minimum existing id, else a fresh group inserted with empty
members), write the member list into the primary group, upsert every
member's phone record, and finally delete the other existing groups. -/
def link_parts (db : DB) (model_names : List String) (pt : PartType) : DB :=
  match existingGroupIds db model_names pt with
  | [] =>
      ⟨upsertAll db.phones (finalModels db model_names pt) pt db.nextGid,
       setKey (db.groups ++ [(db.nextGid, ⟨pt, []⟩)]) db.nextGid
         ⟨pt, finalModels db model_names pt⟩,
       db.nextGid + 1⟩
  | e :: es =>
      ⟨upsertAll db.phones (finalModels db model_names pt) pt (es.foldl Nat.min e),
       removeKeys
         (setKey db.groups (es.foldl Nat.min e) ⟨pt, finalModels db model_names pt⟩)
         ((e :: es).filter (fun g => g ≠ es.foldl Nat.min e)),
       db.nextGid⟩

/-! ## Sequences of link operations -/

/-- Run a sequence of `link_parts` calls, all on the same part type. -/
def runLinks (pt : PartType) : DB → List (List String) → DB
  | db, [] => db
  | db, c :: cs => runLinks pt (link_parts db c pt) cs

/-- Connectivity of a call sequence: every call is non-empty and (except
when nothing was linked before) names at least one model whose folded name
was already seen in an earlier call.  This is the "overlapping model sets"
premise of the merge guarantee. -/
def overlapOK : List String → List (List String) → Bool
  | _, [] => true
  | seen, c :: cs =>
    (!c.isEmpty) && (seen.isEmpty || c.any (fun n => decide (foldName n ∈ seen))) &&
      overlapOK (seen ++ c.map foldName) cs

/-- Invariant of a store built purely by connected `link_parts` calls on
one part type starting from the empty store: a single group (id 0) of that
type with member list M, and one phone record per folded member name, all
referencing group 0. -/
def linkedInv (pt : PartType) (db : DB) (M : List String) : Prop :=
  db.groups = [(0, ⟨pt, M⟩)] ∧
  db.nextGid = 1 ∧
  (db.phones.map Prod.fst).Nodup ∧
  (∀ kv ∈ db.phones, kv.2.groupRef pt = some 0 ∧ kv.1 ∈ M.map foldName) ∧
  (∀ k ∈ M.map foldName, ∃ r, lookupKey db.phones k = some r) ∧
  M ≠ []

/-! ## Lemmas: sorting membership -/

theorem mem_insSorted (le : String → String → Bool) (x a : String)
    (l : List String) : a ∈ insSorted le x l ↔ a = x ∨ a ∈ l := by
  induction l with
  | nil => simp [insSorted]
  | cons b bs ih =>
    simp only [insSorted]
    split
    · simp [List.mem_cons]
    · simp only [List.mem_cons, ih]
      tauto

theorem mem_sortBy (le : String → String → Bool) (a : String) (l : List String) :
    a ∈ sortBy le l ↔ a ∈ l := by
  induction l with
  | nil => simp [sortBy]
  | cons b bs ih => simp [sortBy, mem_insSorted, ih]

/-! ## Lemmas: association lists -/

theorem lookupKey_eq_none {κ ν : Type} [DecidableEq κ] (l : List (κ × ν)) (k : κ) :
    lookupKey l k = none ↔ k ∉ l.map Prod.fst := by
  induction l with
  | nil => simp [lookupKey]
  | cons kv rest ih =>
    obtain ⟨k0, v0⟩ := kv
    simp only [lookupKey, List.map_cons, List.mem_cons]
    split
    · simp_all
    · simp_all [eq_comm]

theorem lookupKey_mem {κ ν : Type} [DecidableEq κ] {l : List (κ × ν)} {k : κ}
    {v : ν} (h : lookupKey l k = some v) : (k, v) ∈ l := by
  induction l with
  | nil => simp [lookupKey] at h
  | cons kv rest ih =>
    obtain ⟨k0, v0⟩ := kv
    simp only [lookupKey] at h
    split at h
    · simp_all
    · simp [List.mem_cons, ih h]

theorem setKey_keys {κ ν : Type} [DecidableEq κ] (l : List (κ × ν)) (k : κ) (v : ν) :
    (setKey l k v).map Prod.fst = l.map Prod.fst := by
  induction l with
  | nil => simp [setKey]
  | cons kv rest ih =>
    obtain ⟨k0, v0⟩ := kv
    simp only [setKey]
    split <;> simp_all

theorem lookupKey_setKey_self {κ ν : Type} [DecidableEq κ] (l : List (κ × ν))
    (k : κ) (v : ν) :
    lookupKey (setKey l k v) k = (lookupKey l k).map (fun _ => v) := by
  induction l with
  | nil => simp [setKey, lookupKey]
  | cons kv rest ih =>
    obtain ⟨k0, v0⟩ := kv
    simp only [setKey]
    split
    · simp_all [lookupKey]
    · simp_all [lookupKey]

theorem lookupKey_setKey_ne {κ ν : Type} [DecidableEq κ] (l : List (κ × ν))
    {k k2 : κ} (v : ν) (h : k2 ≠ k) :
    lookupKey (setKey l k v) k2 = lookupKey l k2 := by
  induction l with
  | nil => simp [setKey]
  | cons kv rest ih =>
    obtain ⟨k0, v0⟩ := kv
    simp only [setKey]
    split
    · rename_i hk
      have hne : ¬ k0 = k2 := by
        rw [hk]
        exact fun hc => h hc.symm
      simp [lookupKey, hne]
    · simp only [lookupKey, ih]

theorem setKey_of_lookup_eq {κ ν : Type} [DecidableEq κ] {l : List (κ × ν)}
    {k : κ} {v : ν} (h : lookupKey l k = some v) : setKey l k v = l := by
  induction l with
  | nil => simp [setKey]
  | cons kv rest ih =>
    obtain ⟨k0, v0⟩ := kv
    simp only [lookupKey] at h
    simp only [setKey]
    by_cases hk : k0 = k
    · rw [if_pos hk] at h ⊢
      obtain rfl : v0 = v := by simpa using h
      rfl
    · rw [if_neg hk] at h ⊢
      rw [ih h]

theorem setKey_of_not_mem {κ ν : Type} [DecidableEq κ] {l : List (κ × ν)}
    {k : κ} (v : ν) (h : k ∉ l.map Prod.fst) : setKey l k v = l := by
  induction l with
  | nil => simp [setKey]
  | cons kv rest ih =>
    obtain ⟨k0, v0⟩ := kv
    simp only [List.map_cons, List.mem_cons] at h
    push_neg at h
    simp only [setKey]
    split
    · rename_i hk
      exact absurd hk.symm h.1
    · simp [ih h.2]

theorem setKey_append_fresh {κ ν : Type} [DecidableEq κ] {l : List (κ × ν)}
    {k : κ} (v0 v : ν) (h : k ∉ l.map Prod.fst) :
    setKey (l ++ [(k, v0)]) k v = l ++ [(k, v)] := by
  induction l with
  | nil => simp [setKey]
  | cons kv rest ih =>
    obtain ⟨k0, v0'⟩ := kv
    simp only [List.map_cons, List.mem_cons] at h
    push_neg at h
    simp only [List.cons_append, setKey]
    split
    · rename_i hk
      exact absurd hk.symm h.1
    · simp [ih h.2]

theorem mem_setKey {κ ν : Type} [DecidableEq κ] {l : List (κ × ν)} {k : κ}
    {v : ν} {kv : κ × ν} (hnd : (l.map Prod.fst).Nodup)
    (h : kv ∈ setKey l k v) :
    (kv = (k, v) ∧ k ∈ l.map Prod.fst) ∨ (kv ∈ l ∧ kv.1 ≠ k) := by
  induction l with
  | nil => simp [setKey] at h
  | cons kv0 rest ih =>
    obtain ⟨k0, v0⟩ := kv0
    simp only [List.map_cons, List.nodup_cons] at hnd
    simp only [setKey] at h
    split at h
    · rename_i hk
      subst hk
      rcases List.mem_cons.mp h with h1 | h1
      · left
        simp [h1]
      · right
        refine ⟨List.mem_cons_of_mem _ h1, ?_⟩
        intro hcontra
        exact hnd.1 (hcontra ▸ List.mem_map_of_mem Prod.fst h1)
    · rename_i hk
      rcases List.mem_cons.mp h with h1 | h1
      · right
        subst h1
        exact ⟨List.mem_cons_self _ _, hk⟩
      · rcases ih hnd.2 h1 with h2 | h2
        · left
          simp [h2.1, List.mem_cons, h2.2]
        · right
          exact ⟨List.mem_cons_of_mem _ h2.1, h2.2⟩

theorem lookupKey_filter {κ ν : Type} [DecidableEq κ] (f : κ × ν → Bool)
    (l : List (κ × ν)) (k : κ) (hf : ∀ v, f (k, v) = true) :
    lookupKey (l.filter f) k = lookupKey l k := by
  induction l with
  | nil => simp
  | cons kv rest ih =>
    obtain ⟨k0, v0⟩ := kv
    rw [List.filter_cons]
    by_cases hk : k0 = k
    · subst hk
      rw [hf v0]
      simp [lookupKey, ih]
    · cases hfk : f (k0, v0) <;> simp [lookupKey, hk, ih]

theorem lookupKey_removeKeys {κ ν : Type} [DecidableEq κ] (l : List (κ × ν))
    {ks : List κ} {k : κ} (h : k ∉ ks) :
    lookupKey (removeKeys l ks) k = lookupKey l k := by
  unfold removeKeys
  exact lookupKey_filter _ l k (fun v => by simpa using h)

theorem keys_removeKeys {κ ν : Type} [DecidableEq κ] (l : List (κ × ν))
    (ks : List κ) (k : κ) :
    k ∈ (removeKeys l ks).map Prod.fst ↔ k ∈ l.map Prod.fst ∧ k ∉ ks := by
  constructor
  · intro h
    rcases List.mem_map.mp h with ⟨kv, hkv, hfst⟩
    rcases List.mem_filter.mp hkv with ⟨hmem, hdec⟩
    subst hfst
    exact ⟨List.mem_map_of_mem Prod.fst hmem, by simpa using hdec⟩
  · rintro ⟨hmem, hks⟩
    rcases List.mem_map.mp hmem with ⟨kv, hkv, hfst⟩
    subst hfst
    exact List.mem_map_of_mem Prod.fst
      (List.mem_filter.mpr ⟨hkv, by simpa using hks⟩)

theorem lookupKey_append_right {κ ν : Type} [DecidableEq κ] (l : List (κ × ν))
    {k : κ} (v : ν) (h : lookupKey l k = none) :
    lookupKey (l ++ [(k, v)]) k = some v := by
  induction l with
  | nil => simp [lookupKey]
  | cons kv0 rest ih =>
    obtain ⟨k0, v0⟩ := kv0
    simp only [lookupKey] at h
    simp only [List.cons_append, lookupKey]
    by_cases hk : k0 = k
    · rw [if_pos hk] at h
      exact absurd h (by simp)
    · rw [if_neg hk] at h ⊢
      exact ih h

theorem lookupKey_append_single_ne {κ ν : Type} [DecidableEq κ]
    (l : List (κ × ν)) {k k2 : κ} (v : ν) (h : k2 ≠ k) :
    lookupKey (l ++ [(k, v)]) k2 = lookupKey l k2 := by
  induction l with
  | nil =>
    have : ¬ k = k2 := fun hc => h hc.symm
    simp [lookupKey, this]
  | cons kv0 rest ih =>
    obtain ⟨k0, v0⟩ := kv0
    simp only [List.cons_append, lookupKey, List.append_eq]
    rw [ih]

/-! ## Lemmas: phone records and upserts -/

theorem groupRef_setGroupRef_self (r : PhoneRec) (pt : PartType) (g : Nat) :
    (r.setGroupRef pt g).groupRef pt = some g := by
  cases pt <;> simp [PhoneRec.setGroupRef, PhoneRec.groupRef]

theorem setGroupRef_eq_self {r : PhoneRec} {pt : PartType} {g : Nat}
    (h : r.groupRef pt = some g) : r.setGroupRef pt g = r := by
  cases pt <;> cases r <;>
    simp_all [PhoneRec.setGroupRef, PhoneRec.groupRef]

theorem upsertPhone_eq_some {P : List (String × PhoneRec)} {m : String}
    {p : PhoneRec} (pt : PartType) (g : Nat)
    (h : lookupKey P (foldName m) = some p) :
    upsertPhone P m pt g = setKey P (foldName m) (p.setGroupRef pt g) := by
  unfold upsertPhone
  rw [h]

theorem upsertPhone_eq_none {P : List (String × PhoneRec)} {m : String}
    (pt : PartType) (g : Nat) (h : lookupKey P (foldName m) = none) :
    upsertPhone P m pt g =
      P ++ [(foldName m, (PhoneRec.mk m none none).setGroupRef pt g)] := by
  unfold upsertPhone
  rw [h]

theorem lookupKey_upsertPhone_self (P : List (String × PhoneRec)) (m : String)
    (pt : PartType) (g : Nat) :
    ∃ r, lookupKey (upsertPhone P m pt g) (foldName m) = some r ∧
      r.groupRef pt = some g := by
  cases hl : lookupKey P (foldName m) with
  | none =>
    refine ⟨(PhoneRec.mk m none none).setGroupRef pt g, ?_,
      groupRef_setGroupRef_self _ _ _⟩
    rw [upsertPhone_eq_none pt g hl]
    exact lookupKey_append_right P _ hl
  | some p =>
    refine ⟨p.setGroupRef pt g, ?_, groupRef_setGroupRef_self _ _ _⟩
    rw [upsertPhone_eq_some pt g hl, lookupKey_setKey_self, hl]
    rfl

theorem lookupKey_upsertPhone_ne (P : List (String × PhoneRec)) (m : String)
    (pt : PartType) (g : Nat) {k : String} (h : k ≠ foldName m) :
    lookupKey (upsertPhone P m pt g) k = lookupKey P k := by
  cases hl : lookupKey P (foldName m) with
  | none =>
    rw [upsertPhone_eq_none pt g hl]
    exact lookupKey_append_single_ne P _ h
  | some p =>
    rw [upsertPhone_eq_some pt g hl]
    exact lookupKey_setKey_ne P _ h

theorem keys_upsertPhone (P : List (String × PhoneRec)) (m : String)
    (pt : PartType) (g : Nat) (k : String) :
    k ∈ (upsertPhone P m pt g).map Prod.fst ↔
      k ∈ P.map Prod.fst ∨ k = foldName m := by
  cases hl : lookupKey P (foldName m) with
  | none =>
    rw [upsertPhone_eq_none pt g hl, List.map_append]
    simp
  | some p =>
    rw [upsertPhone_eq_some pt g hl, setKey_keys]
    constructor
    · exact Or.inl
    · rintro (h | rfl)
      · exact h
      · exact List.mem_map_of_mem Prod.fst (lookupKey_mem hl)

theorem nodup_upsertPhone {P : List (String × PhoneRec)} (m : String)
    (pt : PartType) (g : Nat) (h : (P.map Prod.fst).Nodup) :
    ((upsertPhone P m pt g).map Prod.fst).Nodup := by
  cases hl : lookupKey P (foldName m) with
  | none =>
    have hkeys : foldName m ∉ P.map Prod.fst := (lookupKey_eq_none P _).mp hl
    rw [upsertPhone_eq_none pt g hl, List.map_append]
    rw [List.nodup_append]
    refine ⟨h, List.nodup_singleton _, ?_⟩
    intro x hx hx2
    simp only [List.map_cons, List.map_nil, List.mem_singleton] at hx2
    subst hx2
    exact hkeys hx
  | some p =>
    rw [upsertPhone_eq_some pt g hl, setKey_keys]
    exact h

theorem mem_upsertPhone {P : List (String × PhoneRec)} {m : String}
    {pt : PartType} {g : Nat} {kv : String × PhoneRec}
    (hnd : (P.map Prod.fst).Nodup) (h : kv ∈ upsertPhone P m pt g) :
    (kv.1 = foldName m ∧ kv.2.groupRef pt = some g) ∨
      (kv ∈ P ∧ kv.1 ≠ foldName m) := by
  cases hl : lookupKey P (foldName m) with
  | none =>
    rw [upsertPhone_eq_none pt g hl] at h
    rcases List.mem_append.mp h with h1 | h1
    · right
      refine ⟨h1, ?_⟩
      intro hc
      exact (lookupKey_eq_none P _).mp hl (hc ▸ List.mem_map_of_mem Prod.fst h1)
    · left
      simp only [List.mem_singleton] at h1
      subst h1
      exact ⟨rfl, groupRef_setGroupRef_self _ _ _⟩
  | some p =>
    rw [upsertPhone_eq_some pt g hl] at h
    rcases mem_setKey hnd h with h1 | h1
    · left
      rw [h1.1]
      exact ⟨rfl, groupRef_setGroupRef_self _ _ _⟩
    · right
      exact h1

/-! ## Lemmas: the bulk upsert -/

theorem upsertAll_nil (P : List (String × PhoneRec)) (pt : PartType) (g : Nat) :
    upsertAll P [] pt g = P := rfl

theorem upsertAll_cons (P : List (String × PhoneRec)) (m : String)
    (rest : List String) (pt : PartType) (g : Nat) :
    upsertAll P (m :: rest) pt g = upsertAll (upsertPhone P m pt g) rest pt g := rfl

theorem lookupKey_upsertAll_not_mem (P : List (String × PhoneRec))
    (names : List String) (pt : PartType) (g : Nat) {k : String}
    (h : k ∉ names.map foldName) :
    lookupKey (upsertAll P names pt g) k = lookupKey P k := by
  induction names generalizing P with
  | nil => rfl
  | cons m rest ih =>
    simp only [List.map_cons, List.mem_cons] at h
    push_neg at h
    rw [upsertAll_cons, ih (upsertPhone P m pt g) h.2]
    exact lookupKey_upsertPhone_ne P m pt g h.1

theorem lookupKey_upsertAll_mem (P : List (String × PhoneRec))
    (names : List String) (pt : PartType) (g : Nat) {k : String}
    (h : k ∈ names.map foldName) :
    ∃ r, lookupKey (upsertAll P names pt g) k = some r ∧
      r.groupRef pt = some g := by
  induction names generalizing P with
  | nil => simp at h
  | cons m rest ih =>
    rw [upsertAll_cons]
    by_cases hk : k ∈ rest.map foldName
    · exact ih (upsertPhone P m pt g) hk
    · simp only [List.map_cons, List.mem_cons] at h
      rcases h with h | h
      · subst h
        rw [lookupKey_upsertAll_not_mem _ rest pt g hk]
        exact lookupKey_upsertPhone_self P m pt g
      · exact absurd h hk

theorem nodup_upsertAll {P : List (String × PhoneRec)} (names : List String)
    (pt : PartType) (g : Nat) (h : (P.map Prod.fst).Nodup) :
    ((upsertAll P names pt g).map Prod.fst).Nodup := by
  induction names generalizing P with
  | nil => exact h
  | cons m rest ih =>
    rw [upsertAll_cons]
    exact ih (nodup_upsertPhone m pt g h)

theorem mem_upsertAll {P : List (String × PhoneRec)} {names : List String}
    {pt : PartType} {g : Nat} {kv : String × PhoneRec}
    (hnd : (P.map Prod.fst).Nodup) (h : kv ∈ upsertAll P names pt g) :
    (kv.1 ∈ names.map foldName ∧ kv.2.groupRef pt = some g) ∨
      (kv ∈ P ∧ kv.1 ∉ names.map foldName) := by
  induction names generalizing P with
  | nil =>
    rw [upsertAll_nil] at h
    exact Or.inr ⟨h, by simp⟩
  | cons m rest ih =>
    rw [upsertAll_cons] at h
    rcases ih (nodup_upsertPhone m pt g hnd) h with h1 | h1
    · exact Or.inl ⟨by simp [h1.1], h1.2⟩
    · rcases mem_upsertPhone hnd h1.1 with h2 | h2
      · exact Or.inl ⟨by simp [h2.1], h2.2⟩
      · refine Or.inr ⟨h2.1, ?_⟩
        simp only [List.map_cons, List.mem_cons]
        push_neg
        exact ⟨h2.2, h1.2⟩

theorem keys_upsertAll (P : List (String × PhoneRec)) (names : List String)
    (pt : PartType) (g : Nat) (k : String) :
    k ∈ (upsertAll P names pt g).map Prod.fst ↔
      k ∈ P.map Prod.fst ∨ k ∈ names.map foldName := by
  induction names generalizing P with
  | nil => simp [upsertAll_nil]
  | cons m rest ih =>
    rw [upsertAll_cons, ih, keys_upsertPhone]
    simp only [List.map_cons, List.mem_cons]
    tauto

theorem upsertAll_id {P : List (String × PhoneRec)} {names : List String}
    {pt : PartType} {g : Nat}
    (h : ∀ m ∈ names, ∃ r, lookupKey P (foldName m) = some r ∧
      r.groupRef pt = some g) :
    upsertAll P names pt g = P := by
  induction names with
  | nil => rfl
  | cons m rest ih =>
    rw [upsertAll_cons]
    rcases h m (List.mem_cons_self m rest) with ⟨r, hl, hr⟩
    have hstep : upsertPhone P m pt g = P := by
      rw [upsertPhone_eq_some pt g hl, setGroupRef_eq_self hr]
      exact setKey_of_lookup_eq hl
    rw [hstep]
    exact ih (fun m2 hm2 => h m2 (List.mem_cons_of_mem m hm2))

/-! ## Lemmas: dedup and minimum -/

theorem dedup_allEq {l : List Nat} {a : Nat} (hne : l ≠ [])
    (hall : ∀ x ∈ l, x = a) : l.dedup = [a] := by
  induction l with
  | nil => exact absurd rfl hne
  | cons b rest ih =>
    obtain rfl : b = a := hall b (List.mem_cons_self b rest)
    cases rest with
    | nil => simp
    | cons c rest2 =>
      have hall2 : ∀ x ∈ c :: rest2, x = b :=
        fun x hx => hall x (List.mem_cons_of_mem b hx)
      have hmem : b ∈ c :: rest2 := by
        have hc : c = b := hall2 c (List.mem_cons_self c rest2)
        simp [hc]
      rw [List.dedup_cons_of_mem hmem]
      exact ih (by simp) hall2

theorem foldl_min_mem (es : List Nat) : ∀ e : Nat, es.foldl Nat.min e ∈ e :: es := by
  induction es with
  | nil => intro e; simp
  | cons x xs ih =>
    intro e
    simp only [List.foldl_cons]
    have hchoice : Nat.min e x = e ∨ Nat.min e x = x := by
      rcases Nat.le_total e x with hc | hc
      · exact Or.inl (Nat.min_eq_left hc)
      · exact Or.inr (Nat.min_eq_right hc)
    rcases List.mem_cons.mp (ih (Nat.min e x)) with h | h
    · rcases hchoice with hm | hm <;> rw [h, hm]
      · exact List.mem_cons_self _ _
      · exact List.mem_cons_of_mem _ (List.mem_cons_self _ _)
    · exact List.mem_cons_of_mem _ (List.mem_cons_of_mem _ h)

theorem foldl_min_le (es : List Nat) :
    ∀ e : Nat, ∀ x ∈ e :: es, es.foldl Nat.min e ≤ x := by
  induction es with
  | nil =>
    intro e x hx
    simp only [List.mem_cons, List.not_mem_nil, or_false] at hx
    subst hx
    simp
  | cons y ys ih =>
    intro e x hx
    simp only [List.foldl_cons]
    have hbase : ys.foldl Nat.min (Nat.min e y) ≤ Nat.min e y :=
      ih (Nat.min e y) _ (List.mem_cons_self _ _)
    rcases List.mem_cons.mp hx with h1 | hx2
    · rw [h1]
      exact le_trans hbase (Nat.min_le_left e y)
    · rcases List.mem_cons.mp hx2 with h2 | hx3
      · rw [h2]
        exact le_trans hbase (Nat.min_le_right e y)
      · exact ih (Nat.min e y) x (List.mem_cons_of_mem _ hx3)

/-! ## Lemmas: the pieces of `link_parts` -/

theorem lookupKey_of_mem_nodup {κ ν : Type} [DecidableEq κ]
    {P : List (κ × ν)} {kv : κ × ν} (hnd : (P.map Prod.fst).Nodup)
    (h : kv ∈ P) : lookupKey P kv.1 = some kv.2 := by
  induction P with
  | nil => simp at h
  | cons kv0 rest ih =>
    obtain ⟨k0, v0⟩ := kv0
    simp only [List.map_cons, List.nodup_cons] at hnd
    rcases List.mem_cons.mp h with h1 | h1
    · subst h1
      simp [lookupKey]
    · have hne : ¬ k0 = kv.1 := by
        intro hc
        exact hnd.1 (hc ▸ List.mem_map_of_mem Prod.fst h1)
      simp only [lookupKey, if_neg hne]
      exact ih hnd.2 h1

theorem existingGroupIds_nil (db : DB) (pt : PartType) :
    existingGroupIds db [] pt = [] := by
  simp [existingGroupIds]

theorem existingGroupIds_eq_single {db : DB} {names : List String}
    {pt : PartType} {g : Nat}
    (hex : ∃ n ∈ names, ∃ r, lookupKey db.phones (foldName n) = some r)
    (hall : ∀ kv ∈ db.phones, kv.1 ∈ names.map foldName →
      kv.2.groupRef pt = some g) :
    existingGroupIds db names pt = [g] := by
  unfold existingGroupIds
  apply dedup_allEq
  · rcases hex with ⟨n, hn, r, hr⟩
    have hmem : (foldName n, r) ∈ db.phones := lookupKey_mem hr
    have hkey : foldName n ∈ names.map foldName := List.mem_map_of_mem foldName hn
    have hfil : (foldName n, r) ∈ db.phones.filter
        (fun kv => kv.1 ∈ names.map foldName) :=
      List.mem_filter.mpr ⟨hmem, by simpa using hkey⟩
    have href : r.groupRef pt = some g := hall _ hmem hkey
    have : g ∈ ((db.phones.filter (fun kv => kv.1 ∈ names.map foldName)).map
        Prod.snd).filterMap (fun p => p.groupRef pt) :=
      List.mem_filterMap.mpr ⟨r, List.mem_map_of_mem Prod.snd hfil, href⟩
    exact List.ne_nil_of_mem this
  · intro x hx
    rcases List.mem_filterMap.mp hx with ⟨p, hp, hpref⟩
    rcases List.mem_map.mp hp with ⟨kv, hkv, hsnd⟩
    rcases List.mem_filter.mp hkv with ⟨hkvmem, hkvkey⟩
    have := hall kv hkvmem (by simpa using hkvkey)
    rw [hsnd] at this
    rw [this] at hpref
    exact (Option.some_inj.mp hpref).symm

theorem mem_finalModels (db : DB) (names : List String) (pt : PartType)
    (x : String) :
    x ∈ finalModels db names pt ↔
      x ∈ names ∨ ∃ kv ∈ db.groups,
        kv.1 ∈ existingGroupIds db names pt ∧ x ∈ kv.2.models := by
  unfold finalModels sortCasefold
  rw [mem_sortBy, List.mem_dedup, List.mem_append]
  constructor
  · rintro (h | h)
    · exact Or.inl h
    · right
      rcases List.mem_flatten.mp h with ⟨l, hl, hx⟩
      rcases List.mem_map.mp hl with ⟨p, hp, rfl⟩
      rcases List.mem_map.mp hp with ⟨kv, hkv, rfl⟩
      rcases List.mem_filter.mp hkv with ⟨hmem, hkey⟩
      exact ⟨kv, hmem, by simpa using hkey, hx⟩
  · rintro (h | ⟨kv, hmem, hkey, hx⟩)
    · exact Or.inl h
    · right
      refine List.mem_flatten.mpr ⟨kv.2.models, ?_, hx⟩
      exact List.mem_map_of_mem GroupRec.models
        (List.mem_map_of_mem Prod.snd
          (List.mem_filter.mpr ⟨hmem, by simpa using hkey⟩))

theorem mem_names_finalModels {db : DB} {names : List String} {pt : PartType}
    {x : String} (h : x ∈ names) : x ∈ finalModels db names pt :=
  (mem_finalModels db names pt x).mpr (Or.inl h)

theorem link_parts_eq_nil {db : DB} {names : List String} {pt : PartType}
    (h : existingGroupIds db names pt = []) :
    link_parts db names pt =
      ⟨upsertAll db.phones (finalModels db names pt) pt db.nextGid,
       setKey (db.groups ++ [(db.nextGid, ⟨pt, []⟩)]) db.nextGid
         ⟨pt, finalModels db names pt⟩,
       db.nextGid + 1⟩ := by
  unfold link_parts
  rw [h]

theorem link_parts_eq_cons {db : DB} {names : List String} {pt : PartType}
    {e : Nat} {es : List Nat} (h : existingGroupIds db names pt = e :: es) :
    link_parts db names pt =
      ⟨upsertAll db.phones (finalModels db names pt) pt (es.foldl Nat.min e),
       removeKeys
         (setKey db.groups (es.foldl Nat.min e) ⟨pt, finalModels db names pt⟩)
         ((e :: es).filter (fun g => g ≠ es.foldl Nat.min e)),
       db.nextGid⟩ := by
  unfold link_parts
  rw [h]

theorem removeKeys_nil {κ ν : Type} [DecidableEq κ] (l : List (κ × ν)) :
    removeKeys l [] = l := by
  simp [removeKeys]

theorem primaryOf_eq_of_nil {db : DB} {names : List String} {pt : PartType}
    (h : existingGroupIds db names pt = []) :
    primaryOf db names pt = db.nextGid := by
  unfold primaryOf
  rw [h]

theorem primaryOf_eq_of_cons {db : DB} {names : List String} {pt : PartType}
    {e : Nat} {es : List Nat} (h : existingGroupIds db names pt = e :: es) :
    primaryOf db names pt = es.foldl Nat.min e := by
  unfold primaryOf
  rw [h]

theorem link_parts_phones (db : DB) (names : List String) (pt : PartType) :
    (link_parts db names pt).phones =
      upsertAll db.phones (finalModels db names pt) pt (primaryOf db names pt) := by
  cases he : existingGroupIds db names pt with
  | nil => rw [link_parts_eq_nil he, primaryOf_eq_of_nil he]
  | cons e es => rw [link_parts_eq_cons he, primaryOf_eq_of_cons he]

theorem nodup_phones_link_parts {db : DB} (names : List String) (pt : PartType)
    (h : (db.phones.map Prod.fst).Nodup) :
    (((link_parts db names pt).phones).map Prod.fst).Nodup := by
  rw [link_parts_phones]
  exact nodup_upsertAll _ pt _ h

theorem nodup_groups_link_parts {db : DB} (names : List String) (pt : PartType)
    (hnd : (db.groups.map Prod.fst).Nodup)
    (hfresh : db.nextGid ∉ db.groups.map Prod.fst) :
    (((link_parts db names pt).groups).map Prod.fst).Nodup := by
  cases he : existingGroupIds db names pt with
  | nil =>
    rw [link_parts_eq_nil he]
    rw [setKey_keys, List.map_append]
    rw [List.nodup_append]
    refine ⟨hnd, List.nodup_singleton _, ?_⟩
    intro x hx hx2
    simp only [List.map_cons, List.map_nil, List.mem_singleton] at hx2
    subst hx2
    exact hfresh hx
  | cons e es =>
    rw [link_parts_eq_cons he]
    have hsub : ((removeKeys
        (setKey db.groups (es.foldl Nat.min e) ⟨pt, finalModels db names pt⟩)
        ((e :: es).filter (fun g => g ≠ es.foldl Nat.min e))).map Prod.fst).Sublist
        ((setKey db.groups (es.foldl Nat.min e)
          ⟨pt, finalModels db names pt⟩).map Prod.fst) :=
      List.Sublist.map Prod.fst (List.filter_sublist _)
    have hnd2 : ((setKey db.groups (es.foldl Nat.min e)
        ⟨pt, finalModels db names pt⟩).map Prod.fst).Nodup := by
      rw [setKey_keys]
      exact hnd
    exact hnd2.sublist hsub

/-! ## Claim C9 -/

/-- C9: for every pair of input names that are equal after lowercase
folding, `find_phone` returns the same result (the same record, or
not-found for both); it is a pure read with no side effects on the store
(its type `DB → String → Option PhoneRec` returns no new store). -/
theorem C9_find_phone_case_insensitive (db : DB) (n1 n2 : String)
    (h : foldName n1 = foldName n2) : find_phone db n1 = find_phone db n2 := by
  unfold find_phone
  rw [h]

/-- Witness for C9 at the spec's own example pair. -/
theorem C9_witness :
    foldName "vivo y20" = foldName "Vivo Y20" ∧
    find_phone (link_parts emptyDB ["Vivo Y20"] PartType.glass) "vivo y20" =
      find_phone (link_parts emptyDB ["Vivo Y20"] PartType.glass) "Vivo Y20" :=
  ⟨by decide, C9_find_phone_case_insensitive
    (link_parts emptyDB ["Vivo Y20"] PartType.glass) "vivo y20" "Vivo Y20"
    (by decide)⟩

/-! ## Claim C10 -/

/-- C10: if a phone record exists and holds a group reference for the
requested part type but no group record with that identifier exists,
`get_compatible_models` returns the empty sequence, exactly the result
returned for an unknown phone. -/
theorem C10_dangling_group_reference_empty (db : DB) (name : String)
    (pt : PartType) (p : PhoneRec) (gid : Nat)
    (h1 : find_phone db name = some p) (h2 : p.groupRef pt = some gid)
    (h3 : lookupKey db.groups gid = none) :
    get_compatible_models db name pt = [] ∧
    get_compatible_models db name pt = get_compatible_models emptyDB name pt := by
  have h : get_compatible_models db name pt = [] := by
    simp only [get_compatible_models, h1, h2, h3]
  exact ⟨h, by rw [h]; rfl⟩

/-- Witness for C10: a store with a phone whose glass reference dangles. -/
theorem C10_witness :
    get_compatible_models (DB.mk [("x", PhoneRec.mk "x" none (some 5))] [] 6)
      "x" PartType.glass = [] :=
  (C10_dangling_group_reference_empty
    (DB.mk [("x", PhoneRec.mk "x" none (some 5))] [] 6) "x" PartType.glass
    (PhoneRec.mk "x" none (some 5)) 5 (by decide) (by decide) (by decide)).1

/-! ## Claim C2 -/

/-- C2 counterexample: the claim says the result is sorted
case-insensitively, but `get_compatible_models` re-sorts with plain
`sorted`, which is case-sensitive code-point order.  On the reachable
store linking B, a, c for glass, querying c returns `["B", "a"]`, while
the case-insensitive order of the remaining members is `["a", "B"]`. -/
theorem C2_counterexample_sort_case_sensitive :
    get_compatible_models (link_parts emptyDB ["B", "a", "c"] PartType.glass) "c"
      PartType.glass = ["B", "a"] ∧
    sortCasefold ["B", "a"] = ["a", "B"] ∧
    (["B", "a"] : List String) ≠ ["a", "B"] := by decide

/-- C2 amended: three cases of `get_compatible_models` — unknown phone
gives the empty sequence; known phone without a group reference for the
part type gives the one-element sequence holding the input name; known
phone whose referenced group exists gives the group's members minus the
queried model (excluded case-insensitively, and never included), sorted in
case-SENSITIVE code-point order. -/
theorem C2_getCompatibleModels_postcondition_amended (db : DB) (name : String)
    (pt : PartType) :
    (find_phone db name = none → get_compatible_models db name pt = []) ∧
    (∀ p, find_phone db name = some p → p.groupRef pt = none →
      get_compatible_models db name pt = [name]) ∧
    (∀ p gid g, find_phone db name = some p → p.groupRef pt = some gid →
      lookupKey db.groups gid = some g →
      get_compatible_models db name pt =
        sortPlain (g.models.filter (fun m => foldName m ≠ foldName name)) ∧
      name ∉ get_compatible_models db name pt ∧
      ∀ m ∈ get_compatible_models db name pt, foldName m ≠ foldName name) := by
  refine ⟨?_, ?_, ?_⟩
  · intro h
    simp only [get_compatible_models, h]
  · intro p h1 h2
    simp only [get_compatible_models, h1, h2]
  · intro p gid g h1 h2 h3
    have heq : get_compatible_models db name pt =
        sortPlain (g.models.filter (fun m => foldName m ≠ foldName name)) := by
      simp only [get_compatible_models, h1, h2, h3]
    have hexcl : ∀ m ∈ get_compatible_models db name pt,
        foldName m ≠ foldName name := by
      intro m hmem
      rw [heq] at hmem
      unfold sortPlain at hmem
      rcases List.mem_filter.mp ((mem_sortBy strLE m _).mp hmem) with ⟨_, hdec⟩
      simpa using hdec
    exact ⟨heq, fun hmem => hexcl name hmem rfl, hexcl⟩

/-- Witness for C2 amended, third case, on the store linking B, a, c. -/
theorem C2_witness :
    get_compatible_models (link_parts emptyDB ["B", "a", "c"] PartType.glass)
      "c" PartType.glass =
      sortPlain ((GroupRec.mk PartType.glass ["a", "B", "c"]).models.filter
        (fun m => foldName m ≠ foldName "c")) ∧
    "c" ∉ get_compatible_models (link_parts emptyDB ["B", "a", "c"]
      PartType.glass) "c" PartType.glass ∧
    ∀ m ∈ get_compatible_models (link_parts emptyDB ["B", "a", "c"]
      PartType.glass) "c" PartType.glass, foldName m ≠ foldName "c" :=
  (C2_getCompatibleModels_postcondition_amended
    (link_parts emptyDB ["B", "a", "c"] PartType.glass) "c" PartType.glass).2.2
    (PhoneRec.mk "c" none (some 0)) 0 (GroupRec.mk PartType.glass ["a", "B", "c"])
    (by decide) (by decide) (by decide)

/-! ## Claim C3 -/

/-- C3 evidence: `delete_phone` looks the phone up case-insensitively but
pulls the raw input string from the group member lists.  Deleting
`"oppo f21"` after linking `"Oppo F21"` succeeds (returns true, the phone
record is gone and a subsequent find reports not-found), yet the model is
NOT removed from the glass group's member set, and the ghost member is
visible to `get_compatible_models` afterwards — contradicting the claim
and the function's own docstring. -/
theorem C3_deletePhone_case_variant_bug :
    (delete_phone (link_parts emptyDB ["Oppo F21", "Oppo F21 Pro"] PartType.glass)
      "oppo f21").1 = true ∧
    find_phone (delete_phone (link_parts emptyDB ["Oppo F21", "Oppo F21 Pro"]
      PartType.glass) "oppo f21").2 "Oppo F21" = none ∧
    lookupKey (delete_phone (link_parts emptyDB ["Oppo F21", "Oppo F21 Pro"]
      PartType.glass) "oppo f21").2.groups 0 =
      some ⟨PartType.glass, ["Oppo F21", "Oppo F21 Pro"]⟩ ∧
    get_compatible_models (delete_phone (link_parts emptyDB
      ["Oppo F21", "Oppo F21 Pro"] PartType.glass) "oppo f21").2 "Oppo F21 Pro"
      PartType.glass = ["Oppo F21"] := by decide

/-! ## Claim C4 -/

/-- C4 counterexample: deleting the last member of a group does NOT delete
the group record; the empty group persists in the store. -/
theorem C4_counterexample_empty_group_persists :
    (delete_phone (link_parts emptyDB ["A"] PartType.glass) "A").1 = true ∧
    (delete_phone (link_parts emptyDB ["A"] PartType.glass) "A").2.groups =
      [(0, ⟨PartType.glass, []⟩)] := by decide

/-- C4 amended: `delete_phone` never deletes any group record — the set of
group ids is preserved exactly, so a group whose last member is removed
persists with an empty member list. -/
theorem C4_deletePhone_never_deletes_groups_amended (db : DB) (name : String) :
    ((delete_phone db name).2).groups.map Prod.fst = db.groups.map Prod.fst := by
  have keys_pull : ∀ (gs : List (Nat × GroupRec)) (gid : Nat) (nm : String),
      (pullModel gs gid nm).map Prod.fst = gs.map Prod.fst := by
    intro gs gid nm
    cases h : lookupKey gs gid with
    | none => simp only [pullModel, h]
    | some g =>
      simp only [pullModel, h]
      exact setKey_keys _ _ _
  cases h : find_phone db name with
  | none => simp only [delete_phone, h]
  | some pd =>
    obtain ⟨mid, dgid, ggid⟩ := pd
    cases dgid <;> cases ggid <;>
      simp [delete_phone, h, keys_pull]

/-! ## Claim C6 -/

/-- C6 counterexample: `link_parts` called with an empty model list is not
a no-op and raises no error — it allocates a brand-new empty group, a
write that the claim says must not happen. -/
theorem C6_counterexample_empty_input_writes :
    link_parts emptyDB [] PartType.glass ≠ emptyDB ∧
    (link_parts emptyDB [] PartType.glass).groups =
      [(0, ⟨PartType.glass, []⟩)] ∧
    (link_parts emptyDB [] PartType.glass).phones = [] := by decide

/-- C6 amended: `link_parts` performs no trimming, no exclusion of empty
names, and no empty-input rejection; on an empty input list it leaves the
phones untouched but still allocates a fresh group (with empty member
list) and bumps the id counter, reporting no error. -/
theorem C6_linkParts_empty_input_amended (db : DB) (pt : PartType) :
    (link_parts db [] pt).phones = db.phones ∧
    (link_parts db [] pt).groups.map Prod.fst =
      db.groups.map Prod.fst ++ [db.nextGid] ∧
    (link_parts db [] pt).nextGid = db.nextGid + 1 := by
  have he : existingGroupIds db [] pt = [] := existingGroupIds_nil db pt
  rw [link_parts_eq_nil he]
  refine ⟨?_, ?_, rfl⟩
  · have hf : finalModels db [] pt = [] := by
      unfold finalModels
      rw [he]
      simp [sortCasefold, sortBy]
    rw [hf]
    rfl
  · rw [setKey_keys, List.map_append]
    rfl

/-! ## Claim C8 -/

/-- C8 counterexample: linking a known model again under a different
capitalization adds a second, case-variant member entry to the group:
after linking "a" and then "A", group 0 holds both "A" and "a", two
distinct entries with the same folded name. -/
theorem C8_counterexample_case_variant_members :
    lookupKey ((link_parts (link_parts emptyDB ["a"] PartType.glass) ["A"]
      PartType.glass).groups) 0 = some ⟨PartType.glass, ["A", "a"]⟩ ∧
    foldName "A" = foldName "a" ∧ ("A" : String) ≠ "a" ∧
    (link_parts (link_parts emptyDB ["a"] PartType.glass) ["A"]
      PartType.glass).phones.map Prod.fst = ["a"] := by decide

/-- C8 amended: case-folded identity holds for phone records but not for
group member entries: `link_parts` preserves uniqueness of the folded
search keys of the phone collection (at most one PhoneRecord per folded
name), while group member lists may accumulate case-variant entries of the
same folded name. -/
theorem C8_phone_keys_unique_amended (db : DB) (names : List String)
    (pt : PartType) (h : (db.phones.map Prod.fst).Nodup) :
    (((link_parts db names pt).phones).map Prod.fst).Nodup :=
  nodup_phones_link_parts names pt h

/-- Witness for C8 amended on the counterexample store itself. -/
theorem C8_witness :
    (((link_parts (link_parts emptyDB ["a"] PartType.glass) ["A"]
      PartType.glass).phones).map Prod.fst).Nodup :=
  C8_phone_keys_unique_amended (link_parts emptyDB ["a"] PartType.glass) ["A"]
    PartType.glass (by decide)

/-! ## Claim C5 -/

/-- C5: primary-group selection of `link_parts`.  When the set of existing
group ids referenced by the input models is non-empty, the primary is its
minimum id (the lexicographically smallest ObjectId string, see the header
note), every other existing id is gone from the store at the end, the
primary survives (when it existed) carrying the final member list, and no
fresh group is allocated.  When the set is empty a fresh group is
allocated and no group is deleted. -/
theorem C5_primary_group_selection (db : DB) (names : List String)
    (pt : PartType) :
    (existingGroupIds db names pt = [] →
      (link_parts db names pt).nextGid = db.nextGid + 1 ∧
      (link_parts db names pt).groups.map Prod.fst =
        db.groups.map Prod.fst ++ [db.nextGid]) ∧
    (∀ e es, existingGroupIds db names pt = e :: es →
      primaryOf db names pt ∈ (e :: es) ∧
      (∀ g ∈ (e :: es), primaryOf db names pt ≤ g) ∧
      (∀ g ∈ (e :: es), g ≠ primaryOf db names pt →
        g ∉ (link_parts db names pt).groups.map Prod.fst) ∧
      (primaryOf db names pt ∈ db.groups.map Prod.fst →
        lookupKey (link_parts db names pt).groups (primaryOf db names pt) =
          some ⟨pt, finalModels db names pt⟩) ∧
      (link_parts db names pt).nextGid = db.nextGid) := by
  constructor
  · intro he
    rw [link_parts_eq_nil he]
    refine ⟨rfl, ?_⟩
    rw [setKey_keys, List.map_append]
    rfl
  · intro e es he
    rw [primaryOf_eq_of_cons he, link_parts_eq_cons he]
    refine ⟨foldl_min_mem es e, fun g hg => foldl_min_le es e g hg, ?_, ?_, rfl⟩
    · intro g hg hgne hmemkeys
      rcases (keys_removeKeys _ _ _).mp hmemkeys with ⟨_, hnotin⟩
      exact hnotin (List.mem_filter.mpr ⟨hg, by simpa using hgne⟩)
    · intro hmem
      have hP : (es.foldl Nat.min e) ∉
          (e :: es).filter (fun g => g ≠ es.foldl Nat.min e) := by
        intro hc
        rcases List.mem_filter.mp hc with ⟨_, hdec⟩
        simp at hdec
      rw [lookupKey_removeKeys _ hP, lookupKey_setKey_self]
      cases hl : lookupKey db.groups (es.foldl Nat.min e) with
      | none => exact absurd hmem ((lookupKey_eq_none db.groups _).mp hl)
      | some w => rfl

/-- Witness for C5: a store with two glass groups (ids 0 and 1); linking
their models merges into the smaller id 0, deletes id 1, allocates
nothing. -/
theorem C5_witness :
    (1 : Nat) ∉ (link_parts (link_parts (link_parts emptyDB ["A"] PartType.glass)
      ["B"] PartType.glass) ["A", "B"] PartType.glass).groups.map Prod.fst ∧
    lookupKey (link_parts (link_parts (link_parts emptyDB ["A"] PartType.glass)
      ["B"] PartType.glass) ["A", "B"] PartType.glass).groups
      (primaryOf (link_parts (link_parts emptyDB ["A"] PartType.glass) ["B"]
        PartType.glass) ["A", "B"] PartType.glass) =
      some ⟨PartType.glass, finalModels (link_parts (link_parts emptyDB ["A"]
        PartType.glass) ["B"] PartType.glass) ["A", "B"] PartType.glass⟩ ∧
    (link_parts (link_parts (link_parts emptyDB ["A"] PartType.glass) ["B"]
      PartType.glass) ["A", "B"] PartType.glass).nextGid =
      (link_parts (link_parts emptyDB ["A"] PartType.glass) ["B"]
        PartType.glass).nextGid := by
  have h := (C5_primary_group_selection (link_parts (link_parts emptyDB ["A"]
    PartType.glass) ["B"] PartType.glass) ["A", "B"] PartType.glass).2 0 [1]
    (by decide)
  exact ⟨h.2.2.1 1 (by decide) (by decide), h.2.2.2.1 (by decide), h.2.2.2.2⟩

/-! ## Claim C7 -/

/-- After a `link_parts` call the primary group either carries the final
member list, or (only when the chosen existing id dangled) is absent. -/
theorem link_parts_lookup_primary {db : DB} {names : List String} {pt : PartType}
    (hfresh : db.nextGid ∉ db.groups.map Prod.fst) :
    lookupKey (link_parts db names pt).groups (primaryOf db names pt) =
      some ⟨pt, finalModels db names pt⟩ ∨
    (lookupKey (link_parts db names pt).groups (primaryOf db names pt) = none ∧
      primaryOf db names pt ∉ db.groups.map Prod.fst) := by
  cases he : existingGroupIds db names pt with
  | nil =>
    left
    rw [link_parts_eq_nil he, primaryOf_eq_of_nil he]
    rw [setKey_append_fresh _ _ hfresh]
    exact lookupKey_append_right _ _ ((lookupKey_eq_none _ _).mpr hfresh)
  | cons e es =>
    rw [link_parts_eq_cons he, primaryOf_eq_of_cons he]
    have hP : (es.foldl Nat.min e) ∉
        (e :: es).filter (fun g => g ≠ es.foldl Nat.min e) := by
      intro hc
      rcases List.mem_filter.mp hc with ⟨_, hdec⟩
      simp at hdec
    rw [lookupKey_removeKeys _ hP, lookupKey_setKey_self]
    cases hl : lookupKey db.groups (es.foldl Nat.min e) with
    | none =>
      right
      exact ⟨rfl, (lookupKey_eq_none _ _).mp hl⟩
    | some w => left; rfl

theorem existingGroupIds_after_link {db : DB} {names : List String}
    {pt : PartType} (hnd : (db.phones.map Prod.fst).Nodup) (hne : names ≠ []) :
    existingGroupIds (link_parts db names pt) names pt =
      [primaryOf db names pt] := by
  apply existingGroupIds_eq_single
  · obtain ⟨n, hn⟩ : ∃ n, n ∈ names := by
      cases names with
      | nil => exact absurd rfl hne
      | cons a as => exact ⟨a, List.mem_cons_self a as⟩
    refine ⟨n, hn, ?_⟩
    have hmem : foldName n ∈ (finalModels db names pt).map foldName :=
      List.mem_map_of_mem foldName (mem_names_finalModels hn)
    rw [link_parts_phones]
    rcases lookupKey_upsertAll_mem _ _ _ _ hmem with ⟨r, hr, _⟩
    exact ⟨r, hr⟩
  · intro kv hkv hkey
    rw [link_parts_phones] at hkv
    rcases mem_upsertAll hnd hkv with h1 | h1
    · exact h1.2
    · exfalso
      apply h1.2
      rcases List.mem_map.mp hkey with ⟨n, hn, hfn⟩
      rw [← hfn]
      exact List.mem_map_of_mem foldName (mem_names_finalModels hn)

/-- C7: idempotence of `link_parts`.  For every well-formed store and every
non-empty model list, calling `link_parts` twice in succession leaves
exactly the same phone records (hence the same phone-to-group references)
as calling it once, the same set of group ids, per-group the same part
type and the same member set, and the same id counter. -/
theorem C7_linkParts_idempotent (db : DB) (names : List String) (pt : PartType)
    (hWF : db.WF) (hne : names ≠ []) :
    (link_parts (link_parts db names pt) names pt).phones =
      (link_parts db names pt).phones ∧
    (∀ gid, gid ∈ ((link_parts (link_parts db names pt) names pt).groups.map
        Prod.fst) ↔
      gid ∈ ((link_parts db names pt).groups.map Prod.fst)) ∧
    (∀ gid g2,
      lookupKey (link_parts (link_parts db names pt) names pt).groups gid =
        some g2 →
      ∃ g1, lookupKey (link_parts db names pt).groups gid = some g1 ∧
        g1.gtype = g2.gtype ∧ ∀ x, x ∈ g1.models ↔ x ∈ g2.models) ∧
    (link_parts (link_parts db names pt) names pt).nextGid =
      (link_parts db names pt).nextGid := by
  obtain ⟨hph, hgr, hfr⟩ := hWF
  have hfresh : db.nextGid ∉ db.groups.map Prod.fst := by
    intro hc
    exact absurd (hfr _ hc) (lt_irrefl _)
  have hnd1 : (((link_parts db names pt).phones).map Prod.fst).Nodup :=
    nodup_phones_link_parts names pt hph
  have hgnd1 : (((link_parts db names pt).groups).map Prod.fst).Nodup :=
    nodup_groups_link_parts names pt hgr hfresh
  have hE2 : existingGroupIds (link_parts db names pt) names pt =
      [primaryOf db names pt] := existingGroupIds_after_link hph hne
  have hP2 : primaryOf (link_parts db names pt) names pt =
      primaryOf db names pt := by
    rw [primaryOf_eq_of_cons hE2]
    rfl
  have hprim := @link_parts_lookup_primary db names pt hfresh
  have hF2sub : ∀ x ∈ finalModels (link_parts db names pt) names pt,
      x ∈ finalModels db names pt := by
    intro x hx
    rcases (mem_finalModels _ names pt x).mp hx with h | ⟨kv, hkv, hkey, hxm⟩
    · exact mem_names_finalModels h
    · rw [hE2] at hkey
      simp only [List.mem_singleton] at hkey
      rcases hprim with hsome | ⟨hnone, _⟩
      · have hlk := lookupKey_of_mem_nodup hgnd1 hkv
        rw [hkey, hsome] at hlk
        rw [Option.some_inj.mp hlk.symm] at hxm
        exact hxm
      · exfalso
        have : kv.1 ∈ ((link_parts db names pt).groups).map Prod.fst :=
          List.mem_map_of_mem Prod.fst hkv
        rw [hkey] at this
        exact (lookupKey_eq_none _ _).mp hnone this
  have hlook1 : ∀ m ∈ finalModels db names pt,
      ∃ r, lookupKey ((link_parts db names pt).phones) (foldName m) = some r ∧
        r.groupRef pt = some (primaryOf db names pt) := by
    intro m hm
    rw [link_parts_phones]
    exact lookupKey_upsertAll_mem _ _ _ _ (List.mem_map_of_mem foldName hm)
  have hphones : (link_parts (link_parts db names pt) names pt).phones =
      (link_parts db names pt).phones := by
    rw [link_parts_phones (link_parts db names pt) names pt, hP2]
    apply upsertAll_id
    intro m hm
    exact hlook1 m (hF2sub m hm)
  have hgroups2 : (link_parts (link_parts db names pt) names pt).groups =
      setKey ((link_parts db names pt).groups) (primaryOf db names pt)
        ⟨pt, finalModels (link_parts db names pt) names pt⟩ := by
    rw [link_parts_eq_cons hE2]
    simp only [List.foldl_nil]
    rw [show ((primaryOf db names pt :: []).filter
      (fun g => g ≠ primaryOf db names pt)) = [] by simp, removeKeys_nil]
  refine ⟨hphones, ?_, ?_, ?_⟩
  · intro gid
    rw [hgroups2, setKey_keys]
  · intro gid g2 hg2
    rw [hgroups2] at hg2
    by_cases hgid : gid = primaryOf db names pt
    · subst hgid
      rw [lookupKey_setKey_self] at hg2
      rcases hprim with hsome | ⟨hnone, _⟩
      · rw [hsome] at hg2
        obtain rfl : (⟨pt, finalModels (link_parts db names pt) names pt⟩ :
            GroupRec) = g2 := Option.some_inj.mp hg2
        refine ⟨⟨pt, finalModels db names pt⟩, hsome, rfl, ?_⟩
        intro x
        constructor
        · intro hx
          refine (mem_finalModels _ names pt x).mpr (Or.inr ?_)
          refine ⟨(primaryOf db names pt, ⟨pt, finalModels db names pt⟩),
            lookupKey_mem hsome, ?_, hx⟩
          rw [hE2]
          simp
        · intro hx
          exact hF2sub x hx
      · rw [hnone] at hg2
        simp at hg2
    · rw [lookupKey_setKey_ne _ _ hgid] at hg2
      exact ⟨g2, hg2, rfl, fun x => Iff.rfl⟩
  · rw [link_parts_eq_cons hE2]

/-- Witness for C7 at a concrete call. -/
theorem C7_witness :
    (link_parts (link_parts emptyDB ["A", "B"] PartType.glass) ["A", "B"]
      PartType.glass).phones =
      (link_parts emptyDB ["A", "B"] PartType.glass).phones ∧
    (link_parts (link_parts emptyDB ["A", "B"] PartType.glass) ["A", "B"]
      PartType.glass).nextGid =
      (link_parts emptyDB ["A", "B"] PartType.glass).nextGid := by
  have h := C7_linkParts_idempotent emptyDB ["A", "B"] PartType.glass
    (by decide) (by decide)
  exact ⟨h.1, h.2.2.2⟩

/-! ## Claim C1 -/

/-- The first connected call from the empty store establishes the single
group invariant, with members exactly the call's names. -/
theorem linkedInv_base (pt : PartType) {names : List String} (hne : names ≠ []) :
    linkedInv pt (link_parts emptyDB names pt) (finalModels emptyDB names pt) ∧
    (∀ x, x ∈ finalModels emptyDB names pt ↔ x ∈ names) := by
  have he : existingGroupIds emptyDB names pt = [] := by
    simp [existingGroupIds, emptyDB]
  have hmemF : ∀ x, x ∈ finalModels emptyDB names pt ↔ x ∈ names := by
    intro x
    rw [mem_finalModels]
    constructor
    · rintro (h | ⟨kv, hkv, _, _⟩)
      · exact h
      · exact absurd hkv (by simp [emptyDB])
    · exact fun h => Or.inl h
  have hprim : primaryOf emptyDB names pt = 0 := by
    rw [primaryOf_eq_of_nil he]
    rfl
  obtain ⟨n0, hn0⟩ : ∃ n, n ∈ names := by
    cases names with
    | nil => exact absurd rfl hne
    | cons a as => exact ⟨a, List.mem_cons_self a as⟩
  have hFne : finalModels emptyDB names pt ≠ [] :=
    List.ne_nil_of_mem ((hmemF n0).mpr hn0)
  have hnd0 : ((emptyDB.phones).map Prod.fst).Nodup := by simp [emptyDB]
  refine ⟨⟨?_, ?_, ?_, ?_, ?_, hFne⟩, hmemF⟩
  · rw [link_parts_eq_nil he]
    rfl
  · rw [link_parts_eq_nil he]
    rfl
  · rw [link_parts_phones]
    exact nodup_upsertAll _ _ _ hnd0
  · intro kv hkv
    rw [link_parts_phones, hprim] at hkv
    rcases mem_upsertAll hnd0 hkv with h1 | h1
    · exact ⟨h1.2, h1.1⟩
    · exact absurd h1.1 (by simp [emptyDB])
  · intro k hk
    rw [link_parts_phones, hprim]
    rcases lookupKey_upsertAll_mem _ _ _ _ hk with ⟨r, hr, _⟩
    exact ⟨r, hr⟩

/-- A further overlapping non-empty call merges into group 0 and extends
the member set by exactly the call's names. -/
theorem linkedInv_step {pt : PartType} {db : DB} {M N : List String}
    (inv : linkedInv pt db M) (hNne : N ≠ [])
    (hov : ∃ n ∈ N, foldName n ∈ M.map foldName) :
    linkedInv pt (link_parts db N pt) (finalModels db N pt) ∧
    (∀ x, x ∈ finalModels db N pt ↔ x ∈ N ∨ x ∈ M) := by
  obtain ⟨hgroups, hnext, hnd, hentries, hlooks, hMne⟩ := inv
  have hE : existingGroupIds db N pt = [0] := by
    apply existingGroupIds_eq_single
    · rcases hov with ⟨n, hn, hfn⟩
      rcases hlooks _ hfn with ⟨r, hr⟩
      exact ⟨n, hn, r, hr⟩
    · intro kv hkv _
      exact (hentries kv hkv).1
  have hmemF : ∀ x, x ∈ finalModels db N pt ↔ x ∈ N ∨ x ∈ M := by
    intro x
    rw [mem_finalModels]
    constructor
    · rintro (h | ⟨kv, hkv, hkey, hxm⟩)
      · exact Or.inl h
      · right
        rw [hgroups] at hkv
        simp only [List.mem_singleton] at hkv
        rw [hkv] at hxm
        exact hxm
    · rintro (h | h)
      · exact Or.inl h
      · right
        refine ⟨(0, ⟨pt, M⟩), ?_, ?_, h⟩
        · rw [hgroups]
          simp
        · rw [hE]
          simp
  have hprimary : primaryOf db N pt = 0 := by
    rw [primaryOf_eq_of_cons hE]
    rfl
  obtain ⟨n0, hn0⟩ : ∃ n, n ∈ N := by
    cases N with
    | nil => exact absurd rfl hNne
    | cons a as => exact ⟨a, List.mem_cons_self a as⟩
  have hFne : finalModels db N pt ≠ [] :=
    List.ne_nil_of_mem ((hmemF n0).mpr (Or.inl hn0))
  refine ⟨⟨?_, ?_, ?_, ?_, ?_, hFne⟩, hmemF⟩
  · rw [link_parts_eq_cons hE, hgroups]
    simp only [List.foldl_nil]
    rw [show (((0 : Nat) :: []).filter (fun g => g ≠ (0 : Nat))) = [] by simp,
      removeKeys_nil]
    simp [setKey]
  · rw [link_parts_eq_cons hE]
    exact hnext
  · rw [link_parts_phones]
    exact nodup_upsertAll _ _ _ hnd
  · intro kv hkv
    rw [link_parts_phones, hprimary] at hkv
    rcases mem_upsertAll hnd hkv with h1 | h1
    · exact ⟨h1.2, h1.1⟩
    · obtain ⟨href, hkey⟩ := hentries kv h1.1
      refine ⟨href, ?_⟩
      rcases List.mem_map.mp hkey with ⟨m, hm, hfm⟩
      rw [← hfm]
      exact List.mem_map_of_mem foldName ((hmemF m).mpr (Or.inr hm))
  · intro k hk
    rw [link_parts_phones, hprimary]
    rcases lookupKey_upsertAll_mem _ _ _ _ hk with ⟨r, hr, _⟩
    exact ⟨r, hr⟩

/-- Running any connected suffix of calls preserves the single-group
invariant and accumulates exactly the union of all names. -/
theorem runLinks_linkedInv (pt : PartType) :
    ∀ (calls : List (List String)) (db : DB) (M seen : List String),
      linkedInv pt db M → (∀ s, s ∈ seen ↔ s ∈ M.map foldName) →
      overlapOK seen calls = true →
      ∃ M2, linkedInv pt (runLinks pt db calls) M2 ∧
        (∀ x, x ∈ M2 ↔ x ∈ M ∨ x ∈ calls.flatten) := by
  intro calls
  induction calls with
  | nil =>
    intro db M seen inv hseen hov
    exact ⟨M, inv, by simp⟩
  | cons c cs ih =>
    intro db M seen inv hseen hov
    simp only [overlapOK, Bool.and_eq_true] at hov
    obtain ⟨⟨hcne, hover⟩, hrest⟩ := hov
    have hcne2 : c ≠ [] := by
      intro hc
      subst hc
      simp at hcne
    have hov2 : ∃ n ∈ c, foldName n ∈ M.map foldName := by
      rw [Bool.or_eq_true] at hover
      rcases hover with hempty | hany
      · exfalso
        have hMne := inv.2.2.2.2.2
        obtain ⟨m, hm⟩ : ∃ m, m ∈ M := by
          cases M with
          | nil => exact absurd rfl hMne
          | cons a as => exact ⟨a, List.mem_cons_self a as⟩
        have hmm : foldName m ∈ M.map foldName := List.mem_map_of_mem foldName hm
        rw [← hseen] at hmm
        rw [List.isEmpty_iff] at hempty
        rw [hempty] at hmm
        simp at hmm
      · rw [List.any_eq_true] at hany
        rcases hany with ⟨n, hn, hdec⟩
        refine ⟨n, hn, ?_⟩
        rw [← hseen]
        simpa using hdec
    obtain ⟨inv2, hmem2⟩ := linkedInv_step inv hcne2 hov2
    have hseen2 : ∀ s, s ∈ seen ++ c.map foldName ↔
        s ∈ (finalModels db c pt).map foldName := by
      intro s
      rw [List.mem_append, hseen]
      constructor
      · rintro (h | h)
        · rcases List.mem_map.mp h with ⟨m, hm, hfm⟩
          rw [← hfm]
          exact List.mem_map_of_mem foldName ((hmem2 m).mpr (Or.inr hm))
        · rcases List.mem_map.mp h with ⟨n, hn, hfn⟩
          rw [← hfn]
          exact List.mem_map_of_mem foldName ((hmem2 n).mpr (Or.inl hn))
      · intro h
        rcases List.mem_map.mp h with ⟨x, hx, hfx⟩
        rcases (hmem2 x).mp hx with h1 | h1
        · right
          rw [← hfx]
          exact List.mem_map_of_mem foldName h1
        · left
          rw [← hfx]
          exact List.mem_map_of_mem foldName h1
    rcases ih (link_parts db c pt) (finalModels db c pt) (seen ++ c.map foldName)
      inv2 hseen2 hrest with ⟨M2, invR, hmemR⟩
    refine ⟨M2, invR, ?_⟩
    intro x
    rw [hmemR x, hmem2 x]
    simp only [List.flatten_cons, List.mem_append]
    tauto

/-- C1: merge guarantee.  For every sequence of `link_parts` calls on one
part type whose model sets overlap (each call non-empty and, after the
first, naming at least one already-seen folded model name), the final
state holds exactly one group for that part type, its member set is the
union of every name ever linked (the transitive closure), and that
membership is identical to the one produced by a single direct
`link_parts` call on all the names at once. -/
theorem C1_linkParts_merge_transitive_closure (pt : PartType) (c : List String) (cs : List (List String))
    (hov : overlapOK [] (c :: cs) = true) :
    ∃ M, (runLinks pt emptyDB (c :: cs)).groups = [(0, ⟨pt, M⟩)] ∧
      (∀ x, x ∈ M ↔ x ∈ (c :: cs).flatten) ∧
      ∃ Md, (link_parts emptyDB ((c :: cs).flatten) pt).groups =
          [(0, ⟨pt, Md⟩)] ∧
        ∀ x, x ∈ Md ↔ x ∈ M := by
  have hov2 := hov
  simp only [overlapOK, Bool.and_eq_true] at hov2
  obtain ⟨⟨hcne, _⟩, hrest⟩ := hov2
  have hcne2 : c ≠ [] := by
    intro hc
    subst hc
    simp at hcne
  obtain ⟨inv1, hmem1⟩ := linkedInv_base pt hcne2
  have hseen1 : ∀ s, s ∈ (([] : List String) ++ c.map foldName) ↔
      s ∈ (finalModels emptyDB c pt).map foldName := by
    intro s
    simp only [List.nil_append]
    constructor
    · intro h
      rcases List.mem_map.mp h with ⟨n, hn, hfn⟩
      rw [← hfn]
      exact List.mem_map_of_mem foldName ((hmem1 n).mpr hn)
    · intro h
      rcases List.mem_map.mp h with ⟨x, hx, hfx⟩
      rw [← hfx]
      exact List.mem_map_of_mem foldName ((hmem1 x).mp hx)
  rcases runLinks_linkedInv pt cs (link_parts emptyDB c pt)
    (finalModels emptyDB c pt) ([] ++ c.map foldName) inv1 hseen1 hrest with
    ⟨M2, invR, hmemR⟩
  have hgroups : (runLinks pt emptyDB (c :: cs)).groups = [(0, ⟨pt, M2⟩)] :=
    invR.1
  refine ⟨M2, hgroups, ?_, ?_⟩
  · intro x
    rw [hmemR x, hmem1 x]
    simp only [List.flatten_cons, List.mem_append]
  · obtain ⟨n0, hn0⟩ : ∃ n, n ∈ c := by
      cases c with
      | nil => exact absurd rfl hcne2
      | cons a as => exact ⟨a, List.mem_cons_self a as⟩
    have hfne : (c :: cs).flatten ≠ [] := by
      apply List.ne_nil_of_mem
      show n0 ∈ (c :: cs).flatten
      simp only [List.flatten_cons, List.mem_append]
      exact Or.inl hn0
    obtain ⟨invD, hmemD⟩ := linkedInv_base pt hfne
    refine ⟨finalModels emptyDB ((c :: cs).flatten) pt, invD.1, ?_⟩
    intro x
    rw [hmemD x, hmemR x, hmem1 x]
    simp only [List.flatten_cons, List.mem_append]

/-- Witness for C1 at the claim's example: link [A,B] then [B,C]. -/
theorem C1_witness :
    ∃ M, (runLinks PartType.glass emptyDB [["A", "B"], ["B", "C"]]).groups =
        [(0, ⟨PartType.glass, M⟩)] ∧
      (∀ x, x ∈ M ↔ x ∈ ([["A", "B"], ["B", "C"]] : List (List String)).flatten) ∧
      ∃ Md, (link_parts emptyDB (([["A", "B"], ["B", "C"]] :
          List (List String)).flatten) PartType.glass).groups =
          [(0, ⟨PartType.glass, Md⟩)] ∧
        ∀ x, x ∈ Md ↔ x ∈ M :=
  C1_linkParts_merge_transitive_closure PartType.glass ["A", "B"] [["B", "C"]]
    (by decide)
